import Mathlib

/-!
# Verification of the suiup installed-binary registry / default-selection subsystem

Shallow embedding of the Rust sources of `suiup` (MystenLabs/suiup).

Modelling conventions:
* Rust `String` is modelled as Lean `String`.  Rust's `Ord` on `String` is
  byte-wise lexicographic order on the UTF-8 encoding; since UTF-8 encoding is
  monotone in code points, this coincides with Lean/Mathlib's lexicographic
  `LinearOrder String` on the code-point lists.
* Filesystem paths are strings; `PathBuf::push` on Unix is modelled by
  `pjoin` (append with a `/` separator).  File contents are modelled as
  opaque strings ("bytes"); "byte-identical" is equality of those strings.
* JSON values are modelled by the inductive `Json`; `serde_json`
  (de)serialization of `BTreeMap<String, (String, String, bool)>` is modelled
  by `decodeDefaultMap` / `encodeDefaultMap`.  A `BTreeMap` is modelled as an
  association list whose observable behaviour is `lookupMap`; `upsert` models
  the `get_mut`-or-`insert` pattern used in `update_default_version_file`.
* The effectful operations (`switch_to_binary`, `update_default_version_file`,
  `remove_component`, the `default set` command) are modelled as explicit
  state-passing functions `State → State × Except String Unit`; `println!`
  output is collected in `State.log`.  Unix permission bits are not tracked
  (no claim under consideration mentions them).
* The crate's `types.rs` is not part of the provided sources; the record type
  `BinaryVersion` is reconstructed from its uses in
  `handlers/install.rs`/`commands/switch.rs`, and `Version` is the version
  string (spec §3).
-/

namespace Suiup

/-- JSON values, restricted to the constructors the stores use
(`serde_json::Value` for our schemas: strings, booleans, arrays, objects,
null for optional fields). -/
inductive Json where
  | str : String → Json
  | bool : Bool → Json
  | null : Json
  | arr : List Json → Json
  | obj : List (String × Json) → Json

/-- An entry of the default-version store: `(network_release, version, debug)`. -/
abbrev DVEntry := String × String × Bool

/-- The in-memory default-version map (`BTreeMap<String, (String, Version, bool)>`),
modelled as an association list observed through `lookupMap`. -/
abbrev DefaultMap := List (String × DVEntry)

/-- Lookup in an association list (the `BTreeMap::get` observation). -/
def lookupMap (m : DefaultMap) (k : String) : Option DVEntry :=
  match m with
  | [] => none
  | (k', v) :: rest => if k' = k then some v else lookupMap rest k

/-- `BTreeMap` upsert: the `map.get_mut(binary)`-then-mutate-or-`insert`
pattern of `update_default_version_file` (src/handlers/mod.rs:53-65).
Replaces the value in place if the key is present, otherwise adds the entry. -/
def upsert (m : DefaultMap) (k : String) (v : DVEntry) : DefaultMap :=
  match m with
  | [] => [(k, v)]
  | (k', v') :: rest => if k' = k then (k, v) :: rest else (k', v') :: upsert rest k v

/-- `BTreeMap::remove` (used by `remove_component`). -/
def removeKey (m : DefaultMap) (k : String) : DefaultMap :=
  match m with
  | [] => []
  | (k', v') :: rest => if k' = k then rest else (k', v') :: removeKey rest k

/-- `serde_json` deserialization of one map value of type
`(String, Version, bool)`: a Rust tuple deserializes from exactly a
3-element JSON array of a string, a string and a boolean; anything else
(in particular an object with named fields) is a type error. -/
def decodeDVEntry : Json → Except String DVEntry
  | .arr [.str network, .str version, .bool debug] => .ok (network, version, debug)
  | _ => .error "invalid type: expected a tuple of size 3"

/-- `serde_json` deserialization of `BTreeMap<String, (String, Version, bool)>`
from a JSON value: the value must be an object and every field value must
decode as a 3-tuple; duplicate keys behave as repeated `BTreeMap` inserts. -/
def decodeDefaultMap : Json → Except String DefaultMap
  | .obj kvs =>
    kvs.foldlM (fun m kv => do
      let e ← decodeDVEntry kv.2
      pure (upsert m kv.1 e)) []
  | _ => .error "invalid type: expected a map"

/-- Serialization of one default-version entry (a Rust 3-tuple → JSON array). -/
def encodeDVEntry (e : DVEntry) : Json :=
  .arr [.str e.1, .str e.2.1, .bool e.2.2]

/-- Serialization of the default-version map (what
`serde_json::to_string_pretty(&map)` writes back to `default_version.json`). -/
def encodeDefaultMap (m : DefaultMap) : Json :=
  .obj (m.map fun kv => (kv.1, encodeDVEntry kv.2))

/-- Keys of a default-version map. -/
def mapKeys (m : DefaultMap) : List String := m.map Prod.fst

/-- An installed-binary record (`types::BinaryVersion`, reconstructed from its
literal construction in `handlers/install.rs:31-37`): name, network/release,
version string, debug flag and optional recorded artifact path. -/
structure BinaryVersion where
  binary_name : String
  network_release : String
  version : String
  debug : Bool
  path : Option String
deriving DecidableEq

/-- Lexicographic strict order on code-point lists: Rust's `Ord` on `String`
is byte-wise lexicographic on the UTF-8 encoding, which (UTF-8 being
monotone in code points) coincides with this order. -/
def charListLtb : List Char → List Char → Bool
  | [], [] => false
  | [], _ :: _ => true
  | _ :: _, [] => false
  | a :: as, b :: bs => if a < b then true else if b < a then false else charListLtb as bs

/-- `strLtb a b` models Rust `a.cmp(&b) == Ordering::Less` on strings. -/
def strLtb (a b : String) : Bool := charListLtb a.data b.data

/-- `registry::InstallationType`. -/
inductive InstallationType where
  | archive
  | standalone
deriving DecidableEq

/-- `registry::BinaryConfig` (the fields consumed by the modelled commands;
`description`, `repository`, `main_branch`, `cargo_package`,
`nightly_toolchain` and `shared_repo_binary` only feed the out-of-scope
download/build collaborators). -/
structure BinaryConfig where
  name : String
  installation_type : InstallationType
  network_based : Bool
  supported_networks : List String
  default_network : String
  supports_debug : Bool
deriving DecidableEq

/-- The binary registry: the parsed, name-sorted list of embedded configs
(`BinaryRegistry.configs`).  The embedded TOML catalog itself is produced by
`build.rs` from files outside the provided sources, so the registry contents
are kept abstract and quantified over. -/
abbrev Registry := List BinaryConfig

/-- `BinaryRegistry::contains`. -/
def registryContains (reg : Registry) (name : String) : Bool :=
  reg.any fun c => c.name == name

/-- `BinaryRegistry::get`: first config with the given name. -/
def registryGet (reg : Registry) (name : String) : Option BinaryConfig :=
  reg.find? fun c => c.name == name

/-- `registry::BinaryName`: a name validated against the registry. -/
structure BinaryName where
  name : String
deriving DecidableEq

namespace BinaryName

/-- `BinaryName::new`: accepts exactly the names in the registry
(src/registry.rs:102-108). -/
def new (reg : Registry) (name : String) : Except String BinaryName :=
  if registryContains reg name then
    .ok ⟨name⟩
  else
    .error ("Unknown binary: " ++ name)

/-- `BinaryName::config`: registry lookup; the `.expect` panic branch of
src/registry.rs:114-118 is modelled as `none`. -/
def config (reg : Registry) (bn : BinaryName) : Option BinaryConfig :=
  registryGet reg bn.name

end BinaryName

/-- The directory roots resolved from environment variables
(`paths::binaries_dir()` and `paths::get_default_bin_dir()`). -/
structure Env where
  binariesDir : String
  defaultBinDir : String

/-- `PathBuf::push` on Unix: join with a `/` separator. -/
def pjoin (a b : String) : String := a ++ "/" ++ b

/-- The observable system state:
* `files`: artifact and default-bin files (path → bytes);
* `defaultFile`: content of `default_version.json` (`none` = file missing),
  kept as parsed JSON;
* `installedFile`: content of `installed_binaries.json` (`none` = missing),
  kept at the level of its record list (its JSON rendering is not
  distinguished by any claim);
* `log`: `println!` output. -/
structure State where
  files : String → Option String
  defaultFile : Option Json
  installedFile : Option (List BinaryVersion)
  log : List String

/-- `paths::default_file_path` (src/paths.rs:317-326): if
`default_version.json` is missing it is created holding the
pretty-printed empty map (`{}`); the path returned is not modelled. -/
def default_file_path (st : State) : State :=
  match st.defaultFile with
  | none => { st with defaultFile := some (Json.obj []) }
  | some _ => st

/-- `paths::installed_binaries_file` (src/paths.rs:329-336).
`InstalledBinaries::create_file` lives in the crate's `types.rs`, which is
not among the provided sources.  Modelled from the spec: "on missing file,
creates an empty, valid store file as a side effect (self-healing
bootstrap)" — the created aggregate holds no records. -/
def installed_binaries_file (st : State) : State :=
  match st.installedFile with
  | none => { st with installedFile := some [] }
  | some _ => st

/-- `InstalledBinaries::new` / `new_async`: bootstrap the store file if
missing, then return its records (`types.rs` is not among the provided
sources; modelled from spec §4.1 `load()` and the uses in
`commands/switch.rs:34` and `component/remove.rs:17`). -/
def InstalledBinaries.new (st : State) : State × List BinaryVersion :=
  let st' := installed_binaries_file st
  match st'.installedFile with
  | none => (st', [])
  | some bins => (st', bins)

/-- The pure map transformation inside `update_default_version_file`
(src/handlers/mod.rs:53-65): upsert `(network, version, debug)` for every
name in `binaries`. -/
def updateDefaultMap (m : DefaultMap) (binaries : List String)
    (network version : String) (debug : Bool) : DefaultMap :=
  binaries.foldl (fun acc b => upsert acc b (network, version, debug)) m

/-- `handlers::update_default_version_file` (src/handlers/mod.rs:42-71):
resolve (and bootstrap) the default-version file, parse it as
`BTreeMap<String, (String, Version, bool)>`, upsert every name in
`binaries`, and write the map back. -/
def update_default_version_file (binaries : List String)
    (network version : String) (debug : Bool) (st : State) :
    State × Except String Unit :=
  let st0 := default_file_path st
  match st0.defaultFile with
  | none => (st0, .error "cannot open default version file")
  | some j =>
    match decodeDefaultMap j with
    | .error e => (st0, .error e)
    | .ok m =>
      let m' := updateDefaultMap m binaries network version debug
      ({ st0 with defaultFile := some (encodeDefaultMap m') }, .ok ())

/-- Source path of an installed binary as resolved by `switch_to_binary`
(src/commands/switch.rs:100-115): `binaries_dir/network_release[/bin if
nightly]/{name}[-debug]-{version}`. -/
def switchSrcPath (env : Env) (b : BinaryVersion) : String :=
  let src := pjoin env.binariesDir b.network_release
  let src := if b.version = "nightly" then pjoin src "bin" else src
  let binary_filename :=
    if b.debug then b.binary_name ++ "-debug-" ++ b.version
    else b.binary_name ++ "-" ++ b.version
  pjoin src binary_filename

/-- Destination path in the default-bin directory
(src/commands/switch.rs:120-128): `default_bin_dir/{name}[-debug]`. -/
def switchDstPath (env : Env) (b : BinaryVersion) : String :=
  let dst_name := if b.debug then b.binary_name ++ "-debug" else b.binary_name
  pjoin env.defaultBinDir dst_name

/-- `switch_to_binary` (src/commands/switch.rs:99-160), Unix branch:
remove the existing default-bin file if present, copy the source artifact
over (`std::fs::copy` fails if the source is missing), set the permission
bits (not tracked), then update the default-version store keyed by
`binary.binary_name`. -/
def switch_to_binary (env : Env) (b : BinaryVersion) (st : State) :
    State × Except String Unit :=
  let src := switchSrcPath env b
  let dst := switchDstPath env b
  let st1 :=
    if (st.files dst).isSome then
      { st with files := fun p => if p = dst then none else st.files p }
    else st
  match st1.files src with
  | none => (st1, .error ("cannot copy " ++ src ++ " to " ++ dst))
  | some bytes =>
    let st2 := { st1 with files := fun p => if p = dst then some bytes else st1.files p }
    update_default_version_file [b.binary_name] b.network_release b.version b.debug st2

/-- Generic association-list lookup (the `BTreeMap::get` observation for the
grouping map). -/
def alookup {α : Type} (m : List (String × α)) (k : String) : Option α :=
  match m with
  | [] => none
  | (k', v) :: rest => if k' = k then some v else alookup rest k

/-- Rust `str::starts_with(str)`. -/
def startsWithList (pat : List Char) : List Char → Bool
  | [] => pat.isEmpty
  | x :: xs =>
    match pat with
    | [] => true
    | p :: ps => p = x && startsWithList ps xs

/-- `strStartsWith pre s` models Rust `s.starts_with(pre)`. -/
def strStartsWith (pre s : String) : Bool := startsWithList pre.data s.data

/-- Rust `str::contains(str)` (substring containment). -/
def containsSub (pat : List Char) : List Char → Bool
  | [] => startsWithList pat []
  | x :: xs => startsWithList pat (x :: xs) || containsSub pat xs

/-- Recursion core of `splitOnSub`: the fuel argument (always at least the
length of the string, which strictly drops at every step) only makes the
recursion structural; the fuel-exhaustion branch is unreachable. -/
def splitOnSubAux (pat : List Char) : Nat → List Char → List (List Char)
  | 0, s => [s]
  | _ + 1, [] => [[]]
  | fuel + 1, x :: xs =>
    if pat.length != 0 && startsWithList pat (x :: xs) then
      [] :: splitOnSubAux pat fuel (List.drop (pat.length - 1) xs)
    else
      match splitOnSubAux pat fuel xs with
      | [] => [[x]]
      | p :: ps => (x :: p) :: ps

/-- Rust `str::split(&str)` with a non-empty pattern (used by
`parse_component_with_version` with `"@"`, `"=="`, `"="` or `" "`). -/
def splitOnSub (pat : List Char) (s : List Char) : List (List Char) :=
  splitOnSubAux pat s.length s

/-- Rust `str::splitn(2, '-')`: the part before the first `'-'` and the rest,
or `none` when the separator does not occur. -/
def splitFirst (c : Char) : List Char → Option (List Char × List Char)
  | [] => none
  | x :: xs =>
    if x = c then some ([], xs)
    else (splitFirst c xs).map fun ab => (x :: ab.1, ab.2)

/-- `commands::parse_version_spec` (src/commands/mod.rs:193-227). -/
def parse_version_spec (spec : Option String) : Except String (String × Option String) :=
  match spec with
  | none => .ok ("testnet", none)
  | some spec =>
    if strStartsWith "testnet-" spec || strStartsWith "devnet-" spec ||
        strStartsWith "mainnet-" spec then
      match splitFirst '-' spec.data with
      | some ab => .ok (String.mk ab.1, some (String.mk ab.2))
      | none => .error "unreachable: guarded by starts_with"
    else if spec == "testnet" || spec == "devnet" || spec == "mainnet" then
      .ok (spec, none)
    else
      let starts_valid :=
        match spec.data with
        | [] => false
        | c :: rest =>
          c.isDigit ||
            (c = 'v' && (match rest with | c2 :: _ => c2.isDigit | [] => false))
      let has_dot := spec.data.contains '.'
      if !starts_valid || !has_dot then
        .error ("Invalid version format: " ++ spec)
      else
        .ok ("testnet", some spec)

/-- `commands::CommandMetadata` (src/commands/mod.rs:141-145). -/
structure CommandMetadata where
  name : BinaryName
  network : String
  version : Option String

/-- `commands::parse_component_with_version` (src/commands/mod.rs:147-191):
choose the separator (`@`, `==`, `=` or a space), split, validate the binary
name against the registry, and parse the network/version part. -/
def parse_component_with_version (reg : Registry) (s : String) :
    Except String CommandMetadata :=
  let split_char : String :=
    if containsSub "@".data s.data then "@"
    else if containsSub "==".data s.data then "=="
    else if containsSub "=".data s.data then "="
    else " "
  let parts := splitOnSub split_char.data s.data
  match parts with
  | [p0] => do
    let component ← BinaryName.new reg (String.mk p0)
    let nv ← parse_version_spec none
    pure ⟨component, nv.1, nv.2⟩
  | [p0, p1] => do
    let component ← BinaryName.new reg (String.mk p0)
    if p1.isEmpty then
      .error "Version cannot be empty."
    else do
      let nv ← parse_version_spec (some (String.mk p1))
      pure ⟨component, nv.1, nv.2⟩
  | _ => .error "Invalid format. Use binary or binary version"

/-- One step of the grouping loop of `installed_binaries_grouped_by_network`
(src/handlers/mod.rs:386-392): push onto the network's vector, inserting a
singleton vector for a new network. -/
def groupInsert (m : List (String × List BinaryVersion)) (k : String)
    (b : BinaryVersion) : List (String × List BinaryVersion) :=
  match m with
  | [] => [(k, [b])]
  | (k', l) :: rest =>
    if k' = k then (k', l ++ [b]) :: rest else (k', l) :: groupInsert rest k b

/-- `handlers::installed_binaries_grouped_by_network`
(src/handlers/mod.rs:375-395) on an already-loaded record list. -/
def installed_binaries_grouped_by_network (bins : List BinaryVersion) :
    List (String × List BinaryVersion) :=
  bins.foldl (fun m b => groupInsert m b.network_release b) []

/-- Rust `Iterator::max_by(|a, b| a.version.cmp(&b.version))`
(src/commands/default/set.rs:103-108): maximum by the plain string order on
`version`, returning the last maximal element. -/
def maxByVersion (l : List BinaryVersion) : Option BinaryVersion :=
  l.foldl
    (fun acc b =>
      match acc with
      | none => some b
      | some a => if strLtb b.version a.version then some a else some b)
    none

/-- `commands::default::set::Command::exec` (src/commands/default/set.rs:47-221),
Unix branch.  Note the source shadows `name` with the display name
`{name}-debug` before building the debug source filename
(`format!("{}-debug-{}", name, version)`, line 150) and before keying
`update_default_version_file` (line 206); the model reproduces this
faithfully. -/
def default_set_exec (env : Env) (reg : Registry) (nameArg : String)
    (debug : Bool) (nightly : Option String) (st : State) :
    State × Except String Unit :=
  if nameArg = "" ∧ nightly = none then
    (st, .error "Invalid number of arguments. Version is required")
  else
    match parse_component_with_version reg nameArg with
    | .error e => (st, .error e)
    | .ok md =>
      match BinaryName.config reg md.name with
      | none => (st, .error "panic: BinaryName should always have a valid config")
      | some config =>
        let network :=
          if !config.network_based ||
              config.installation_type = InstallationType.standalone then
            match nightly with
            | some n => n
            | none => "standalone"
          else
            match nightly with
            | some n => n
            | none => md.network
        let res := InstalledBinaries.new st
        let st0 := res.1
        let bins := res.2
        let grouped := installed_binaries_grouped_by_network bins
        match alookup grouped network with
        | none => (st0, .error ("No binaries installed for " ++ network))
        | some binaries =>
          let binary_exists :=
            grouped.any fun kv => kv.2.any fun x => x.binary_name == md.name.name
          if !binary_exists then
            (st0, .error ("Binary " ++ md.name.name ++ " not found in installed binaries."))
          else
            let versionRes : Except String String :=
              match md.version with
              | some version =>
                .ok (if strStartsWith "v" version then version else "v" ++ version)
              | none =>
                match maxByVersion (binaries.filter fun b => b.binary_name == md.name.name) with
                | some b => .ok b.version
                | none => .error ("No version found for " ++ md.name.name ++ " in " ++ network)
            match versionRes with
            | .error e => (st0, .error e)
            | .ok version =>
              let binary_version := md.name.name ++ "-" ++ version
              match binaries.find? (fun b =>
                  b.binary_name == md.name.name && b.version == version &&
                  b.network_release == network) with
              | none =>
                (st0, .error ("Binary " ++ binary_version ++ " from " ++ network ++
                  " release not found."))
              | some _ =>
                let name := if debug then md.name.name ++ "-debug" else md.name.name
                let dst := pjoin env.defaultBinDir name
                let src0 := pjoin env.binariesDir network
                let src1 := if nightly.isSome then pjoin src0 "bin" else src0
                let src :=
                  if debug then pjoin src1 (name ++ "-debug-" ++ version)
                  else pjoin src1 binary_version
                let st1 :=
                  if (st0.files dst).isSome then
                    { st0 with files := fun p => if p = dst then none else st0.files p }
                  else st0
                match st1.files src with
                | none => (st1, .error ("Cannot copy binary from " ++ src ++ " to " ++ dst))
                | some bytes =>
                  let st2 :=
                    { st1 with files := fun p => if p = dst then some bytes else st1.files p }
                  update_default_version_file [name] network version debug st2

/-- Rust's `str::split(char)`: the pieces of the string between occurrences
of the separator (an empty string yields one empty piece, a separator at
either end yields an empty piece there). -/
def splitChar (c : Char) : List Char → List (List Char)
  | [] => [[]]
  | x :: xs =>
    if x = c then [] :: splitChar c xs
    else
      match splitChar c xs with
      | [] => [[x]]
      | p :: ps => (x :: p) :: ps

/-- `commands::switch::parse_binary_spec` (src/commands/switch.rs:51-68):
split on `'@'`, demand exactly two parts, and reject empty sides.  Rust
`&str` is modelled as `List Char`. -/
def parse_binary_spec (spec : List Char) : Except String (List Char × List Char) :=
  let parts := splitChar '@' spec
  match parts with
  | [binary_name, network_release] =>
    if binary_name = [] ∨ network_release = [] then
      .error "Binary name and network/release cannot be empty"
    else
      .ok (binary_name, network_release)
  | _ => .error "Invalid format. Use binary@network_release format"

/-- The comparator of `matching_binaries.sort_by(|a, b| b.version.cmp(&a.version))`
(src/commands/switch.rs:93), as a relation: `a` sorts no later than `b` when
`a.version ≥ b.version` in the byte-lexicographic string order. -/
def versionGE (a b : BinaryVersion) : Prop := strLtb a.version b.version = false

instance : DecidableRel versionGE :=
  fun a b => inferInstanceAs (Decidable (strLtb a.version b.version = false))

/-- `commands::switch::find_matching_binary` (src/commands/switch.rs:71-96):
filter the installed records by name and network/release, error if none,
otherwise sort descending by the plain string order on `version` (a stable
sort, as Rust's `sort_by`) and return the first record. -/
def find_matching_binary (installed : List BinaryVersion)
    (binary_name network_release : String) : Except String BinaryVersion :=
  let matching := installed.filter fun b =>
    b.binary_name == binary_name && b.network_release == network_release
  if matching.isEmpty then
    .error ("No installed binary found for " ++ binary_name ++ "@" ++ network_release)
  else
    match List.insertionSort versionGE matching with
    | [] => .error "unreachable: sort of a non-empty list"
    | top :: _ => .ok top

/-- The pre-flight loop of `remove_component` (src/component/remove.rs:33-40):
the first record whose recorded path is missing on disk (records without a
recorded path are skipped). -/
def firstMissing (st : State) : List BinaryVersion → Option String
  | [] => none
  | b :: rest =>
    match b.path with
    | some p => if (st.files p).isSome then firstMissing st rest else some p
    | none => firstMissing st rest

/-- The artifact-deletion loop of `remove_component`
(src/component/remove.rs:53-61): delete each recorded path in order;
`remove_file` on a missing path fails and aborts the loop there. -/
def deleteFiles (st : State) : List BinaryVersion → State × Except String Unit
  | [] => (st, .ok ())
  | b :: rest =>
    match b.path with
    | none => deleteFiles st rest
    | some p =>
      if (st.files p).isSome then
        deleteFiles { st with files := fun q => if q = p then none else st.files q } rest
      else
        (st, .error ("Cannot remove file: " ++ p))

/-- `component::remove::remove_component` (src/component/remove.rs:16-97):
load the installed store, collect the records with the given name, return
early if there are none, abort (successfully, with a message) if any
recorded path is missing, then read the default-version file, delete the
artifacts, delete the default-bin copy for the plain binary name if present,
drop the name from the default-version map, write it back, and save the
filtered installed store.  `remove_binary` lives in the missing `types.rs`;
modelled from spec §4.1 `remove_by_binary_name` (drop every record with the
name).  Only the two early-return messages are collected in the log. -/
def remove_component (env : Env) (binary : BinaryName) (st : State) :
    State × Except String Unit :=
  let res := InstalledBinaries.new st
  let st0 := res.1
  let bins := res.2
  let binaries_to_remove := bins.filter fun b => binary.name == b.binary_name
  if binaries_to_remove.isEmpty then
    ({ st0 with log := st0.log ++ ["No binaries found to remove"] }, .ok ())
  else
    match firstMissing st0 binaries_to_remove with
    | some p =>
      ({ st0 with log := st0.log ++ ["Binary " ++ p ++ " does not exist. Aborting the command."] },
       .ok ())
    | none =>
      let st1 := default_file_path st0
      match st1.defaultFile with
      | none => (st1, .error "Cannot read file")
      | some j =>
        match decodeDefaultMap j with
        | .error _ =>
          (st1, .error "Cannot decode default binary file to JSON. Is the file corrupted?")
        | .ok dmap =>
          match deleteFiles st1 binaries_to_remove with
          | (st2, .error e) => (st2, .error e)
          | (st2, .ok _) =>
            let dst := pjoin env.defaultBinDir binary.name
            let st3 :=
              if (st2.files dst).isSome then
                { st2 with files := fun q => if q = dst then none else st2.files q }
              else st2
            let dmap' := removeKey dmap binary.name
            let st4 := { st3 with defaultFile := some (encodeDefaultMap dmap') }
            let bins' := bins.filter fun b => b.binary_name != binary.name
            ({ st4 with installedFile := some bins' }, .ok ())


/-! ## Order lemmas for the version comparator -/

theorem charListLtb_asymm : ∀ {a b : List Char},
    charListLtb a b = true → charListLtb b a = false := by
  intro a
  induction a with
  | nil => intro b h; cases b <;> simp_all [charListLtb]
  | cons x xs ih =>
    intro b h
    cases b with
    | nil => simp [charListLtb] at h
    | cons y ys =>
      simp only [charListLtb] at h ⊢
      rcases lt_trichotomy x y with hxy | hxy | hxy
      · simp [hxy, not_lt_of_gt hxy]
      · subst hxy
        simp only [lt_irrefl, if_false] at h ⊢
        exact ih h
      · simp [hxy, not_lt_of_gt hxy] at h

theorem charListLtb_conn : ∀ {a b : List Char},
    charListLtb a b = false → charListLtb b a = false → a = b := by
  intro a
  induction a with
  | nil => intro b h _; cases b <;> simp_all [charListLtb]
  | cons x xs ih =>
    intro b h h'
    cases b with
    | nil => simp [charListLtb] at h'
    | cons y ys =>
      simp only [charListLtb] at h h'
      rcases lt_trichotomy x y with hxy | hxy | hxy
      · simp [hxy] at h
      · subst hxy
        simp only [lt_irrefl, if_false] at h h'
        exact congrArg (x :: ·) (ih h h')
      · simp [hxy] at h'

theorem charListLtb_trans : ∀ {a b c : List Char},
    charListLtb a b = true → charListLtb b c = true → charListLtb a c = true := by
  intro a
  induction a with
  | nil =>
    intro b c hab hbc
    cases b with
    | nil => simp [charListLtb] at hab
    | cons y ys => cases c <;> simp_all [charListLtb]
  | cons x xs ih =>
    intro b c hab hbc
    cases b with
    | nil => simp [charListLtb] at hab
    | cons y ys =>
      cases c with
      | nil => simp [charListLtb] at hbc
      | cons z zs =>
        simp only [charListLtb] at hab hbc ⊢
        rcases lt_trichotomy x y with hxy | hxy | hxy
        · rcases lt_trichotomy y z with hyz | hyz | hyz
          · simp [lt_trans hxy hyz]
          · subst hyz; simp [hxy]
          · simp [hyz, not_lt_of_gt hyz] at hbc
        · subst hxy
          simp only [lt_irrefl, if_false] at hab
          rcases lt_trichotomy x z with hxz | hxz | hxz
          · simp [hxz]
          · subst hxz
            simp only [lt_irrefl, if_false] at hbc ⊢
            exact ih hab hbc
          · simp [hxz, not_lt_of_gt hxz] at hbc
        · simp [hxy, not_lt_of_gt hxy] at hab

instance : IsTotal BinaryVersion versionGE := by
  constructor
  intro a b
  cases h : strLtb a.version b.version
  · exact Or.inl h
  · exact Or.inr (charListLtb_asymm h)

theorem charListLtb_irrefl : ∀ (a : List Char), charListLtb a a = false := by
  intro a
  induction a with
  | nil => rfl
  | cons x xs ih => simp [charListLtb, ih]

/-- Transitivity of the reflexive order `¬ (· < ·)` induced by `charListLtb`. -/
theorem charListLtb_nlt_trans : ∀ {a b c : List Char},
    charListLtb a b = false → charListLtb b c = false → charListLtb a c = false := by
  intro a b c hab hbc
  cases hac : charListLtb a c
  · rfl
  · exfalso
    cases hcb : charListLtb c b
    · have hbceq : b = c := charListLtb_conn hbc hcb
      rw [hbceq, hac] at hab
      cases hab
    · have hat : charListLtb a b = true := charListLtb_trans hac hcb
      rw [hat] at hab
      cases hab

instance : IsTrans BinaryVersion versionGE :=
  ⟨fun _ _ _ hab hbc => charListLtb_nlt_trans hab hbc⟩

/-! ## Association-list (`BTreeMap`) lemmas -/

theorem lookupMap_upsert_self (m : DefaultMap) (k : String) (v : DVEntry) :
    lookupMap (upsert m k v) k = some v := by
  induction m with
  | nil => simp [upsert, lookupMap]
  | cons kv rest ih =>
    obtain ⟨k', v'⟩ := kv
    by_cases h : k' = k
    · subst h
      simp [upsert, lookupMap]
    · simp [upsert, lookupMap, h, ih]

theorem lookupMap_upsert_other (m : DefaultMap) (k : String) (v : DVEntry)
    (k' : String) (h : k' ≠ k) : lookupMap (upsert m k v) k' = lookupMap m k' := by
  have hne : ¬k = k' := fun hk => h hk.symm
  induction m with
  | nil => simp [upsert, lookupMap, hne]
  | cons kv rest ih =>
    obtain ⟨k'', v''⟩ := kv
    by_cases hk : k'' = k
    · subst hk
      simp [upsert, lookupMap, hne]
    · simp [upsert, lookupMap, hk, ih]

theorem lookupMap_updateDefaultMap (m : DefaultMap) (B : List String)
    (network version : String) (debug : Bool) (k : String) :
    lookupMap (updateDefaultMap m B network version debug) k =
      if k ∈ B then some (network, version, debug) else lookupMap m k := by
  induction B generalizing m with
  | nil => simp [updateDefaultMap]
  | cons b rest ih =>
    show lookupMap (updateDefaultMap (upsert m b (network, version, debug))
        rest network version debug) k = _
    rw [ih]
    by_cases hr : k ∈ rest
    · simp [hr, List.mem_cons]
    · by_cases hb : k = b
      · subst hb
        simp [hr, List.mem_cons, lookupMap_upsert_self]
      · simp [hr, hb, List.mem_cons, lookupMap_upsert_other m b _ k hb]

/-! ## C6: the default-store update is an upsert with frame -/

/-- C6: for every prior default-version map `M` (the parsed content of the
default-version file) and every call of `update_default_version_file` with
binary names `B`, network, version and debug flag, the call succeeds, the
file afterwards holds exactly `M` updated with each name in `B` mapped to
`(network, version, debug)`, every name not in `B` keeps its prior entry
(upsert, last-write-wins per name), and no other state component changes. -/
theorem update_default_version_file_upsert
    (st : State) (j : Json) (M : DefaultMap) (B : List String)
    (network version : String) (debug : Bool)
    (hfile : st.defaultFile = some j) (hdec : decodeDefaultMap j = .ok M) :
    (update_default_version_file B network version debug st).2 = .ok () ∧
    (update_default_version_file B network version debug st).1.defaultFile =
      some (encodeDefaultMap (updateDefaultMap M B network version debug)) ∧
    (∀ k, lookupMap (updateDefaultMap M B network version debug) k =
      if k ∈ B then some (network, version, debug) else lookupMap M k) ∧
    (update_default_version_file B network version debug st).1.files = st.files ∧
    (update_default_version_file B network version debug st).1.installedFile =
      st.installedFile := by
  have hboot : default_file_path st = st := by
    simp [default_file_path, hfile]
  refine ⟨?_, ?_, fun k => lookupMap_updateDefaultMap M B network version debug k, ?_, ?_⟩ <;>
    simp [update_default_version_file, hboot, hfile, hdec]

/-- Witness for C6 at a concrete state: the default-version file holds the
empty map and `sui` is set to `(testnet, v1.40.1, false)`. -/
theorem update_default_version_file_upsert_witness :
    (update_default_version_file ["sui"] "testnet" "v1.40.1" false
      ⟨fun _ => none, some (Json.obj []), some [], []⟩).1.defaultFile =
      some (encodeDefaultMap (updateDefaultMap [] ["sui"] "testnet" "v1.40.1" false)) :=
  (update_default_version_file_upsert
    ⟨fun _ => none, some (Json.obj []), some [], []⟩ (Json.obj []) [] ["sui"]
    "testnet" "v1.40.1" false rfl rfl).2.1

/-! ## C7: self-healing bootstrap of the two store files -/

/-- C7: when the default-version file (resp. the installed-binaries file) is
missing, resolving its path creates, as a side effect, a file holding an
empty valid map (resp. the empty aggregate) — and the created empty map
parses back as the empty map; when the file already exists, the operation
leaves the state untouched. -/
theorem store_file_bootstrap (st : State) (j : Json) (bins : List BinaryVersion) :
    (st.defaultFile = none →
      (default_file_path st).defaultFile = some (Json.obj []) ∧
      decodeDefaultMap (Json.obj []) = .ok []) ∧
    (st.defaultFile = some j → default_file_path st = st) ∧
    (st.installedFile = none → (installed_binaries_file st).installedFile = some []) ∧
    (st.installedFile = some bins → installed_binaries_file st = st) := by
  refine ⟨fun h => ⟨?_, rfl⟩, fun h => ?_, fun h => ?_, fun h => ?_⟩ <;>
    simp [default_file_path, installed_binaries_file, h]

/-- Witness for C7 at a concrete state with both files missing. -/
theorem store_file_bootstrap_witness :
    (default_file_path ⟨fun _ => none, none, none, []⟩).defaultFile =
      some (Json.obj []) ∧
    (installed_binaries_file ⟨fun _ => none, none, none, []⟩).installedFile =
      some [] :=
  ⟨((store_file_bootstrap ⟨fun _ => none, none, none, []⟩ (Json.obj []) []).1 rfl).1,
   (store_file_bootstrap ⟨fun _ => none, none, none, []⟩ (Json.obj []) []).2.2.1 rfl⟩

/-! ## C9: binary names are validated at parse time, lookup never fails -/

theorem registryContains_iff_get (reg : Registry) (s : String) :
    registryContains reg s = true ↔ ∃ c, registryGet reg s = some c := by
  rw [← Option.isSome_iff_exists]
  simp [registryContains, registryGet, List.any_eq_true, List.find?_isSome]

/-- C9: a `BinaryName` is constructible from a string exactly when the string
is a registry name (`BinaryName::new` rejects every unknown name with an
error, and `FromStr` delegates to `new`), and every successfully constructed
`BinaryName` carries the accepted string and resolves to a configuration —
the `.expect` failure branch of `BinaryName::config` is unreachable. -/
theorem binary_name_parse_time_validation (reg : Registry) (s : String) :
    ((∃ bn, BinaryName.new reg s = .ok bn) ↔ registryContains reg s = true) ∧
    (∀ bn, BinaryName.new reg s = .ok bn →
      bn.name = s ∧ ∃ c, BinaryName.config reg bn = some c) := by
  constructor
  · constructor
    · intro ⟨bn, hbn⟩
      by_contra h
      simp [BinaryName.new, h] at hbn
    · intro h
      exact ⟨⟨s⟩, by simp [BinaryName.new, h]⟩
  · intro bn hbn
    by_cases h : registryContains reg s
    · simp only [BinaryName.new, h, if_true, Except.ok.injEq] at hbn
      subst hbn
      exact ⟨rfl, (registryContains_iff_get reg s).mp h⟩
    · simp [BinaryName.new, h] at hbn

/-! ## C2: a promotion with a missing source fails, but only after deleting
the old default-bin file -/

/-- C2 (amended): if the resolved source artifact path does not exist, the
promotion fails (at the copy step) with the default-version store, the
installed store and every file other than the default-bin destination
untouched — but the pre-existing default-bin file for that display name has
already been deleted, so a failed promotion can leave the default-bin
directory without the previous default.  (`default set` uses the same
remove-then-copy ordering, src/commands/default/set.rs:167-181.) -/
theorem switch_missing_source_deletes_default
    (env : Env) (b : BinaryVersion) (st : State)
    (hsrc : st.files (switchSrcPath env b) = none) :
    (∃ e, (switch_to_binary env b st).2 = .error e) ∧
    (switch_to_binary env b st).1.defaultFile = st.defaultFile ∧
    (switch_to_binary env b st).1.installedFile = st.installedFile ∧
    (∀ p, p ≠ switchDstPath env b → (switch_to_binary env b st).1.files p = st.files p) ∧
    (switch_to_binary env b st).1.files (switchDstPath env b) = none := by
  unfold switch_to_binary
  by_cases hd : (st.files (switchDstPath env b)).isSome
  · simp only [hd, if_true]
    have hnone :
        (if switchSrcPath env b = switchDstPath env b then none
          else st.files (switchSrcPath env b)) = none := by
      split
      · rfl
      · exact hsrc
    rw [hnone]
    refine ⟨⟨_, rfl⟩, rfl, rfl, fun p hp => ?_, ?_⟩
    · simp only [if_neg hp]
    · simp
  · have hdn : st.files (switchDstPath env b) = none := by
      cases h : st.files (switchDstPath env b)
      · rfl
      · rw [h] at hd
        exact absurd rfl hd
    simp only [hdn, Option.isSome_none, Bool.false_eq_true, if_false, hsrc]
    exact ⟨⟨_, rfl⟩, trivial, trivial, fun p _ => trivial, trivial⟩

def envC2 : Env := ⟨"binaries", "bin"⟩

def binC2 : BinaryVersion := ⟨"sui", "testnet", "v1.39.3", false, none⟩

def stC2 : State :=
  ⟨fun p => if p = "bin/sui" then some "OLD" else none, some (Json.obj []), some [], []⟩

/-- Counterexample to C2 as stated: with the source artifact missing and a
previous default-bin file present (`bin/sui`, bytes `OLD`), the switch fails
*after* deleting the previous default: the old file is gone afterwards, so
the failure did not happen before every destructive action. -/
theorem switch_missing_source_counterexample :
    stC2.files (switchDstPath envC2 binC2) = some "OLD" ∧
    stC2.files (switchSrcPath envC2 binC2) = none ∧
    (∃ e, (switch_to_binary envC2 binC2 stC2).2 = .error e) ∧
    (switch_to_binary envC2 binC2 stC2).1.files (switchDstPath envC2 binC2) = none :=
  ⟨rfl, rfl, ⟨_, rfl⟩, rfl⟩

/-- Witness for C2's amended theorem at the same concrete state. -/
theorem switch_missing_source_deletes_default_witness :
    (switch_to_binary envC2 binC2 stC2).1.files (switchDstPath envC2 binC2) = none :=
  (switch_missing_source_deletes_default envC2 binC2 stC2 rfl).2.2.2.2

/-! ## C5: the default-version loader accepts only the 3-tuple shape -/

theorem upsert_append_of_not_mem (m : DefaultMap) (k : String) (v : DVEntry)
    (h : k ∉ mapKeys m) : upsert m k v = m ++ [(k, v)] := by
  induction m with
  | nil => rfl
  | cons kv rest ih =>
    obtain ⟨k', v'⟩ := kv
    simp only [mapKeys, List.map_cons, List.mem_cons, not_or] at h
    have hne : ¬k' = k := fun hk => h.1 hk.symm
    simp only [upsert, if_neg hne, List.cons_append]
    rw [ih (by simpa [mapKeys] using h.2)]

theorem decode_fold_append : ∀ (m acc : DefaultMap),
    (mapKeys m).Nodup → (∀ k ∈ mapKeys m, k ∉ mapKeys acc) →
    List.foldlM
      (fun mm kv => do
        let e ← decodeDVEntry kv.2
        pure (upsert mm kv.1 e))
      acc (m.map fun kv => (kv.1, encodeDVEntry kv.2)) = .ok (acc ++ m) := by
  intro m
  induction m with
  | nil =>
    intro acc _ _
    simp only [List.map_nil, List.foldlM_nil, List.append_nil]
    rfl
  | cons kv rest ih =>
    intro acc hnd hdisj
    obtain ⟨k, e⟩ := kv
    simp only [mapKeys, List.map_cons, List.nodup_cons] at hnd
    have hk : k ∉ mapKeys acc := hdisj k (by simp [mapKeys])
    have h1 : ((fun (mm : DefaultMap) (kv : String × Json) => do
        let e ← decodeDVEntry kv.2
        pure (upsert mm kv.1 e)) acc (k, encodeDVEntry e) : Except String DefaultMap) =
        Except.ok (acc ++ [(k, e)]) := by
      have h0 : upsert acc k e = acc ++ [(k, e)] := upsert_append_of_not_mem acc k e hk
      calc ((fun (mm : DefaultMap) (kv : String × Json) => do
            let e ← decodeDVEntry kv.2
            pure (upsert mm kv.1 e)) acc (k, encodeDVEntry e) : Except String DefaultMap) =
          Except.ok (upsert acc k e) := rfl
        _ = Except.ok (acc ++ [(k, e)]) := by rw [h0]
    simp only [List.map_cons, List.foldlM_cons, h1]
    have hdisj' : ∀ k' ∈ mapKeys rest, k' ∉ mapKeys (acc ++ [(k, e)]) := by
      intro k' hk'
      simp only [mapKeys, List.map_append, List.map_cons, List.map_nil, List.mem_append,
        List.mem_singleton, not_or]
      refine ⟨fun hm => hdisj k' ?_ hm, fun hkk => hnd.1 (hkk ▸ hk')⟩
      simp only [mapKeys, List.map_cons]
      exact List.mem_cons_of_mem _ hk'
    have hrest := ih (acc ++ [(k, e)]) hnd.2 hdisj'
    show List.foldlM _ (acc ++ [(k, e)]) (rest.map fun kv => (kv.1, encodeDVEntry kv.2)) = _
    rw [hrest]
    simp

/-- C5 (amended): the default-version loader accepts exactly the plain
3-tuple shape (name mapped to `[network, version, debug]`) — which is also
the shape the store writes — and that shape round-trips to the same
in-memory map; an entry written with named fields does not load at all
(see the counterexample theorem). -/
theorem default_map_tuple_roundtrip (m : DefaultMap) (h : (mapKeys m).Nodup) :
    decodeDefaultMap (encodeDefaultMap m) = .ok m := by
  have := decode_fold_append m [] h (by simp [mapKeys])
  simpa [decodeDefaultMap, encodeDefaultMap] using this

/-- Witness for C5's amended theorem at a concrete one-entry map. -/
theorem default_map_tuple_roundtrip_witness :
    decodeDefaultMap (encodeDefaultMap [("sui", ("testnet", "v1.39.3", false))]) =
      .ok [("sui", ("testnet", "v1.39.3", false))] :=
  default_map_tuple_roundtrip [("sui", ("testnet", "v1.39.3", false))] (by simp [mapKeys])

/-- Counterexample to C5 as stated: the legacy 3-tuple shape loads, but the
equivalent named-field shape is rejected by the loader with a type error, so
the two shapes do not load to equal in-memory maps. -/
theorem default_map_named_fields_counterexample :
    decodeDefaultMap (Json.obj
        [("sui", Json.arr [Json.str "testnet", Json.str "v1.39.3", Json.bool false])]) =
      .ok [("sui", ("testnet", "v1.39.3", false))] ∧
    decodeDefaultMap (Json.obj
        [("sui", Json.obj [("network", Json.str "testnet"),
          ("version", Json.str "v1.39.3"), ("debug", Json.bool false)])]) =
      .error "invalid type: expected a tuple of size 3" :=
  ⟨rfl, rfl⟩

/-! ## C1: the promotion invariant and the `default set --debug` bug -/

def envC1 : Env := ⟨"binaries", "bin"⟩

/-- The installed record produced by `install sui@testnet-1.39.3 --debug`
(`handlers/install.rs:31-37` stores the plain name with `debug = true`; the
artifact is extracted to `binaries/testnet/sui-debug-v1.39.3`). -/
def recC1 : BinaryVersion :=
  ⟨"sui", "testnet", "v1.39.3", true, some "binaries/testnet/sui-debug-v1.39.3"⟩

def regC1 : Registry :=
  [⟨"sui", .archive, true, ["testnet", "devnet", "mainnet"], "testnet", true⟩]

/-- State after the debug install, with the installed artifact holding bytes
`B1`; an adversarial file with a doubled `-debug-` segment holds bytes `B2`. -/
def stC1 : State :=
  ⟨fun p =>
    if p = "binaries/testnet/sui-debug-v1.39.3" then some "B1"
    else if p = "binaries/testnet/sui-debug-debug-v1.39.3" then some "B2"
    else none,
   some (Json.obj []), some [recC1], []⟩

/-- State after the debug install with only the correctly-laid-out artifact. -/
def stC1b : State :=
  ⟨fun p => if p = "binaries/testnet/sui-debug-v1.39.3" then some "B1" else none,
   some (Json.obj []), some [recC1], []⟩

/-- C1 (code bug, evaluated): `default set sui@testnet-1.39.3 --debug` on the
record installed by `install --debug` resolves its copy source to
`binaries/testnet/sui-debug-debug-v1.39.3` (the shadowed `name` already
carries `-debug`, src/commands/default/set.rs:125-129 and 149-153), so on
the honest post-install state the promotion always fails; and when a file
does exist at the doubled path, the promotion succeeds but keys the
default-version entry under the display name `sui-debug` — the entry for the
binary name `sui` stays absent — and copies bytes that are not the installed
artifact's. `switch` (src/commands/switch.rs:99-160) resolves
`binaries/testnet/sui-debug-v1.39.3` and keys `sui`, as the claim states. -/
theorem default_set_debug_promotion_bug :
    (default_set_exec envC1 regC1 "sui@testnet-1.39.3" true none stC1b).2 =
      .error "Cannot copy binary from binaries/testnet/sui-debug-debug-v1.39.3 to bin/sui-debug" ∧
    (default_set_exec envC1 regC1 "sui@testnet-1.39.3" true none stC1).2 = .ok () ∧
    (default_set_exec envC1 regC1 "sui@testnet-1.39.3" true none stC1).1.defaultFile =
      some (encodeDefaultMap [("sui-debug", ("testnet", "v1.39.3", true))]) ∧
    lookupMap [("sui-debug", ("testnet", "v1.39.3", true))] "sui" = none ∧
    (default_set_exec envC1 regC1 "sui@testnet-1.39.3" true none stC1).1.files
      (switchDstPath envC1 recC1) = some "B2" ∧
    stC1.files (switchSrcPath envC1 recC1) = some "B1" ∧
    ("B2" : String) ≠ "B1" :=
  ⟨rfl, rfl, rfl, rfl, rfl, rfl, by decide⟩

/-! ## C3: the version tie-break is plain string order, not semver -/

theorem maxByVersion_fold (l : List BinaryVersion) : ∀ (a m : BinaryVersion),
    l.foldl
      (fun acc b =>
        match acc with
        | none => some b
        | some a => if strLtb b.version a.version then some a else some b)
      (some a) = some m →
    (m = a ∨ m ∈ l) ∧ strLtb m.version a.version = false ∧
      ∀ y ∈ l, strLtb m.version y.version = false := by
  induction l with
  | nil =>
    intro a m h
    simp only [List.foldl_nil, Option.some.injEq] at h
    subst h
    exact ⟨Or.inl rfl, charListLtb_irrefl _, by simp⟩
  | cons b rest ih =>
    intro a m h
    simp only [List.foldl_cons] at h
    by_cases hba : strLtb b.version a.version
    · rw [if_pos hba] at h
      obtain ⟨hmem, hma, hrest⟩ := ih a m h
      refine ⟨?_, hma, ?_⟩
      · rcases hmem with rfl | hm
        · exact Or.inl rfl
        · exact Or.inr (List.mem_cons_of_mem _ hm)
      · intro y hy
        rcases List.mem_cons.mp hy with rfl | hy'
        · cases hmb : strLtb m.version y.version
          · rfl
          · have hma' : charListLtb m.version.data a.version.data = false := hma
            rw [charListLtb_trans hmb hba] at hma'
            cases hma'
        · exact hrest y hy'
    · have hba' : strLtb b.version a.version = false := by
        cases hv : strLtb b.version a.version
        · rfl
        · exact absurd hv hba
      rw [if_neg hba] at h
      obtain ⟨hmem, hmb, hrest⟩ := ih b m h
      refine ⟨?_, charListLtb_nlt_trans hmb hba', ?_⟩
      · rcases hmem with rfl | hm
        · exact Or.inr (List.mem_cons_self _ _)
        · exact Or.inr (List.mem_cons_of_mem _ hm)
      · intro y hy
        rcases List.mem_cons.mp hy with rfl | hy'
        · exact hmb
        · exact hrest y hy'

theorem maxByVersion_max (l : List BinaryVersion) (m : BinaryVersion)
    (h : maxByVersion l = some m) :
    m ∈ l ∧ ∀ y ∈ l, strLtb m.version y.version = false := by
  cases l with
  | nil => simp [maxByVersion] at h
  | cons b rest =>
    unfold maxByVersion at h
    simp only [List.foldl_cons] at h
    obtain ⟨hmem, hmb, hrest⟩ := maxByVersion_fold rest b m h
    constructor
    · rcases hmem with rfl | hm
      · exact List.mem_cons_self _ _
      · exact List.mem_cons_of_mem _ hm
    · intro y hy
      rcases List.mem_cons.mp hy with rfl | hy'
      · exact hmb
      · exact hrest y hy'

/-- C3 (amended): with at least one matching record, `find_matching_binary`
returns a matching record whose `version` is greatest in the *plain
byte-lexicographic string order* (Rust `String::cmp`), and `default set`'s
version resolution (`max_by` over versions) likewise returns a record whose
version is greatest in that order — not in semantic-version order. -/
theorem version_tie_break_lexicographic
    (installed : List BinaryVersion) (bn nr : String) (r : BinaryVersion)
    (l : List BinaryVersion) (m : BinaryVersion) :
    (find_matching_binary installed bn nr = .ok r →
      r ∈ installed.filter (fun b => b.binary_name == bn && b.network_release == nr) ∧
      ∀ y ∈ installed.filter (fun b => b.binary_name == bn && b.network_release == nr),
        strLtb r.version y.version = false) ∧
    (maxByVersion l = some m →
      m ∈ l ∧ ∀ y ∈ l, strLtb m.version y.version = false) := by
  refine ⟨?_, maxByVersion_max l m⟩
  intro h
  unfold find_matching_binary at h
  by_cases he :
      (installed.filter fun b => b.binary_name == bn && b.network_release == nr).isEmpty
  · rw [if_pos he] at h
    cases h
  · rw [if_neg he] at h
    cases hs : List.insertionSort versionGE
        (installed.filter fun b => b.binary_name == bn && b.network_release == nr) with
    | nil =>
      have hperm := List.perm_insertionSort versionGE
        (installed.filter fun b => b.binary_name == bn && b.network_release == nr)
      rw [hs] at hperm
      have : (installed.filter fun b =>
          b.binary_name == bn && b.network_release == nr) = [] := hperm.symm.eq_nil
      rw [List.isEmpty_iff] at he
      exact absurd this he
    | cons top rest =>
      rw [hs] at h
      simp only [Except.ok.injEq] at h
      subst h
      have hperm := List.perm_insertionSort versionGE
        (installed.filter fun b => b.binary_name == bn && b.network_release == nr)
      have hsorted := List.sorted_insertionSort versionGE
        (installed.filter fun b => b.binary_name == bn && b.network_release == nr)
      rw [hs] at hperm hsorted
      constructor
      · exact hperm.subset (List.mem_cons_self _ _)
      · intro y hy
        have hy' : y ∈ top :: rest := hperm.mem_iff.mpr hy
        rcases List.mem_cons.mp hy' with rfl | hy''
        · exact charListLtb_irrefl _
        · exact (List.sorted_cons.mp hsorted).1 y hy''

/-- Witness for C3's amended theorem on two concrete installed records. -/
theorem version_tie_break_lexicographic_witness :
    (⟨"sui", "testnet", "v1.9.0", false, none⟩ : BinaryVersion) ∈
      ([⟨"sui", "testnet", "v1.9.0", false, none⟩,
        ⟨"sui", "testnet", "v1.10.0", false, none⟩] :
        List BinaryVersion).filter
        (fun b => b.binary_name == "sui" && b.network_release == "testnet") :=
  ((version_tie_break_lexicographic
    [⟨"sui", "testnet", "v1.9.0", false, none⟩,
     ⟨"sui", "testnet", "v1.10.0", false, none⟩]
    "sui" "testnet" ⟨"sui", "testnet", "v1.9.0", false, none⟩
    [⟨"sui", "testnet", "v1.9.0", false, none⟩]
    ⟨"sui", "testnet", "v1.9.0", false, none⟩).1 rfl).1

/-- Counterexample to C3 as stated: with `v1.9.0` and `v1.10.0` installed for
`sui@testnet`, `find_matching_binary` selects `v1.9.0` (the lexicographic
maximum), not the semantically greater `v1.10.0`. -/
theorem version_tie_break_semver_counterexample :
    find_matching_binary
      [⟨"sui", "testnet", "v1.9.0", false, none⟩,
       ⟨"sui", "testnet", "v1.10.0", false, none⟩]
      "sui" "testnet" = .ok ⟨"sui", "testnet", "v1.9.0", false, none⟩ ∧
    ("v1.9.0" : String) ≠ "v1.10.0" :=
  ⟨rfl, by decide⟩

/-! ## C10: characterization of `parse_binary_spec` -/

theorem splitChar_ne_nil (c : Char) (s : List Char) : splitChar c s ≠ [] := by
  induction s with
  | nil => simp [splitChar]
  | cons x xs ih =>
    simp only [splitChar]
    by_cases h : x = c
    · simp [h]
    · rw [if_neg h]
      cases hs : splitChar c xs with
      | nil => simp
      | cons p ps => simp

theorem splitChar_eq_single {c : Char} {s a : List Char} :
    splitChar c s = [a] ↔ s = a ∧ c ∉ a := by
  induction s generalizing a with
  | nil =>
    simp only [splitChar, List.cons.injEq, and_true]
    constructor
    · intro h
      exact ⟨h, by rw [← h]; simp⟩
    · exact fun h => h.1
  | cons x xs ih =>
    by_cases hx : x = c
    · subst hx
      simp only [splitChar, if_pos rfl]
      constructor
      · intro h
        cases hsp : splitChar x xs with
        | nil => exact absurd hsp (splitChar_ne_nil x xs)
        | cons p ps => rw [hsp] at h; simp at h
      · rintro ⟨rfl, hc⟩
        exact absurd (List.mem_cons_self x xs) hc
    · cases hsp : splitChar c xs with
      | nil => exact absurd hsp (splitChar_ne_nil c xs)
      | cons p ps =>
        simp only [splitChar, if_neg hx, hsp]
        constructor
        · intro h
          simp only [List.cons.injEq] at h
          obtain ⟨ha, hps⟩ := h
          have hone : splitChar c xs = [p] := by rw [hsp, hps]
          obtain ⟨rfl, hcp⟩ := ih.mp hone
          refine ⟨by rw [← ha], ?_⟩
          rw [← ha]
          simp only [List.mem_cons, not_or]
          exact ⟨fun hc => hx hc.symm, hcp⟩
        · rintro ⟨rfl, hc⟩
          simp only [List.mem_cons, not_or] at hc
          have hone : splitChar c xs = [xs] := ih.mpr ⟨rfl, hc.2⟩
          rw [hsp] at hone
          simp only [List.cons.injEq] at hone
          obtain ⟨rfl, rfl⟩ := hone
          rfl

theorem splitChar_cons_self (c : Char) (xs : List Char) :
    splitChar c (c :: xs) = [] :: splitChar c xs := by
  simp [splitChar]

theorem splitChar_cons_ne (c x : Char) (xs p : List Char) (ps : List (List Char))
    (h : x ≠ c) (hsp : splitChar c xs = p :: ps) :
    splitChar c (x :: xs) = (x :: p) :: ps := by
  simp [splitChar, h, hsp]

theorem splitChar_eq_pair {c : Char} {s a b : List Char} :
    splitChar c s = [a, b] ↔ s = a ++ c :: b ∧ c ∉ a ∧ c ∉ b := by
  induction s generalizing a with
  | nil =>
    simp only [splitChar]
    constructor
    · intro h
      simp at h
    · rintro ⟨hs, -, -⟩
      exact absurd hs.symm (by simp)
  | cons x xs ih =>
    by_cases hx : x = c
    · subst hx
      rw [splitChar_cons_self]
      constructor
      · intro h
        simp only [List.cons.injEq] at h
        obtain ⟨ha, hsb⟩ := h
        obtain ⟨rfl, hcb⟩ := splitChar_eq_single.mp hsb
        exact ⟨by rw [← ha]; simp, by rw [← ha]; simp, hcb⟩
      · rintro ⟨hs, hca, hcb⟩
        cases a with
        | nil =>
          simp only [List.nil_append, List.cons.injEq, true_and] at hs
          subst hs
          simp [splitChar_eq_single.mpr ⟨rfl, hcb⟩]
        | cons y ys =>
          simp only [List.cons_append, List.cons.injEq] at hs
          exact absurd (hs.1 ▸ List.mem_cons_self y ys) hca
    · cases hsp : splitChar c xs with
      | nil => exact absurd hsp (splitChar_ne_nil c xs)
      | cons p ps =>
        rw [splitChar_cons_ne c x xs p ps hx hsp]
        constructor
        · intro h
          simp only [List.cons.injEq] at h
          obtain ⟨ha, hps⟩ := h
          have hpair : splitChar c xs = [p, b] := by rw [hsp, hps]
          obtain ⟨hxs, hcp, hcb⟩ := ih.mp hpair
          refine ⟨?_, ?_, hcb⟩
          · rw [← ha, hxs]
            rfl
          · rw [← ha]
            simp only [List.mem_cons, not_or]
            exact ⟨fun hc => hx hc.symm, hcp⟩
        · rintro ⟨hs, hca, hcb⟩
          cases a with
          | nil =>
            simp only [List.nil_append, List.cons.injEq] at hs
            exact absurd hs.1 hx
          | cons y ys =>
            simp only [List.cons_append, List.cons.injEq] at hs
            obtain ⟨rfl, hxs⟩ := hs
            simp only [List.mem_cons, not_or] at hca
            have hpair : splitChar c xs = [ys, b] := ih.mpr ⟨hxs, hca.2, hcb⟩
            rw [hsp] at hpair
            simp only [List.cons.injEq] at hpair
            obtain ⟨rfl, rfl⟩ := hpair
            rfl

/-- C10: `parse_binary_spec s` succeeds with `(name, network_release)` exactly
when `s` is `name ++ "@" ++ network_release` with both sides non-empty and
free of `'@'`; in every other case (zero or several `'@'`, or an empty side)
it returns an error. -/
theorem parse_binary_spec_ok_iff (spec a b : List Char) :
    parse_binary_spec spec = .ok (a, b) ↔
      spec = a ++ '@' :: b ∧ a ≠ [] ∧ b ≠ [] ∧ '@' ∉ a ∧ '@' ∉ b := by
  constructor
  · intro h
    unfold parse_binary_spec at h
    cases hsp : splitChar '@' spec with
    | nil => rw [hsp] at h; simp at h
    | cons p ps =>
      cases ps with
      | nil => rw [hsp] at h; simp at h
      | cons q qs =>
        cases qs with
        | nil =>
          rw [hsp] at h
          by_cases hpq : p = [] ∨ q = []
          · simp [hpq] at h
          · simp only [hpq, if_false, Except.ok.injEq, Prod.mk.injEq] at h
            obtain ⟨rfl, rfl⟩ := h
            push_neg at hpq
            obtain ⟨hsplit, hna, hnb⟩ := splitChar_eq_pair.mp hsp
            exact ⟨hsplit, hpq.1, hpq.2, hna, hnb⟩
        | cons r rs => rw [hsp] at h; simp at h
  · rintro ⟨hs, ha, hb, hna, hnb⟩
    have hsp : splitChar '@' spec = [a, b] := splitChar_eq_pair.mpr ⟨hs, hna, hnb⟩
    unfold parse_binary_spec
    rw [hsp]
    simp [ha, hb]

/-- Witness for C10 at `"sui@testnet"` (and, via the reverse direction, the
error on `"sui@"`). -/
theorem parse_binary_spec_ok_iff_witness :
    parse_binary_spec ("sui@testnet".data) = .ok ("sui".data, "testnet".data) :=
  (parse_binary_spec_ok_iff "sui@testnet".data "sui".data "testnet".data).mpr
    (by refine ⟨rfl, by simp, by simp, by decide, by decide⟩)

/-- Witness for C9 on a one-entry registry containing `sui`. -/
theorem binary_name_parse_time_validation_witness :
    (⟨"sui"⟩ : BinaryName).name = "sui" ∧
    ∃ c, BinaryName.config [⟨"sui", .archive, true, ["testnet"], "testnet", true⟩]
      ⟨"sui"⟩ = some c :=
  (binary_name_parse_time_validation
    [⟨"sui", .archive, true, ["testnet"], "testnet", true⟩] "sui").2 ⟨"sui"⟩ rfl

/-! ## C4 and C8: remove pre-flight abort and no-op -/

theorem firstMissing_of_exists (st : State) (l : List BinaryVersion)
    (h : ∃ r ∈ l, ∃ p, r.path = some p ∧ st.files p = none) :
    ∃ p, firstMissing st l = some p ∧ st.files p = none ∧ ∃ r ∈ l, r.path = some p := by
  induction l with
  | nil =>
    obtain ⟨r, hr, -⟩ := h
    simp at hr
  | cons b rest ih =>
    obtain ⟨r, hr, p, hp, hf⟩ := h
    cases hb : b.path with
    | none =>
      rcases List.mem_cons.mp hr with rfl | hr'
      · rw [hb] at hp
        cases hp
      · obtain ⟨q, h1, h2, r', h3, h4⟩ := ih ⟨r, hr', p, hp, hf⟩
        exact ⟨q, by simp [firstMissing, hb, h1], h2, r', List.mem_cons_of_mem _ h3, h4⟩
    | some q =>
      cases hfq : st.files q with
      | none =>
        exact ⟨q, by simp [firstMissing, hb, hfq], hfq, b, List.mem_cons_self _ _, hb⟩
      | some bytes =>
        rcases List.mem_cons.mp hr with rfl | hr'
        · rw [hb] at hp
          injection hp with hpq
          subst hpq
          rw [hfq] at hf
          cases hf
        · obtain ⟨q', h1, h2, r', h3, h4⟩ := ih ⟨r, hr', p, hp, hf⟩
          exact ⟨q', by simp [firstMissing, hb, hfq, h1], h2, r',
            List.mem_cons_of_mem _ h3, h4⟩

/-- C4: if at least one matching installed record has a recorded path that is
missing on disk, `remove_component` aborts the whole operation deleting
nothing: it returns successfully after only logging the missing path; no
file is deleted, the default-bin copy is untouched, and the contents of the
installed-binaries file and of the default-version file are unchanged. -/
theorem remove_missing_path_aborts
    (env : Env) (binary : BinaryName) (st : State) (bins : List BinaryVersion)
    (hinst : st.installedFile = some bins)
    (hmiss : ∃ r ∈ bins.filter (fun b => binary.name == b.binary_name),
      ∃ p, r.path = some p ∧ st.files p = none) :
    ∃ p, st.files p = none ∧
      (∃ r ∈ bins.filter (fun b => binary.name == b.binary_name), r.path = some p) ∧
      (remove_component env binary st).2 = .ok () ∧
      (remove_component env binary st).1.files = st.files ∧
      (remove_component env binary st).1.defaultFile = st.defaultFile ∧
      (remove_component env binary st).1.installedFile = st.installedFile ∧
      (remove_component env binary st).1.log =
        st.log ++ ["Binary " ++ p ++ " does not exist. Aborting the command."] := by
  obtain ⟨p, h1, h2, r', h3, h4⟩ := firstMissing_of_exists st _ hmiss
  have hfe : (bins.filter fun b => binary.name == b.binary_name).isEmpty = false := by
    cases hh : (bins.filter fun b => binary.name == b.binary_name).isEmpty
    · rfl
    · rw [List.isEmpty_iff] at hh
      rw [hh] at h3
      simp at h3
  have heval : remove_component env binary st =
      ({ st with log := st.log ++ ["Binary " ++ p ++ " does not exist. Aborting the command."] },
        .ok ()) := by
    simp only [remove_component, InstalledBinaries.new, installed_binaries_file, hinst, hfe,
      Bool.false_eq_true, if_false, h1]
  exact ⟨p, h2, ⟨r', h3, h4⟩, by rw [heval], by rw [heval], by rw [heval], by rw [heval],
    by rw [heval]⟩

/-- C8: removing a name with zero matching installed records returns
successfully having logged "No binaries found to remove", deleting no files
and leaving the contents of the installed-binaries file and of the
default-version file exactly as they were. -/
theorem remove_no_records_noop
    (env : Env) (binary : BinaryName) (st : State) (bins : List BinaryVersion)
    (hinst : st.installedFile = some bins)
    (hempty : bins.filter (fun b => binary.name == b.binary_name) = []) :
    (remove_component env binary st).2 = .ok () ∧
    (remove_component env binary st).1.files = st.files ∧
    (remove_component env binary st).1.defaultFile = st.defaultFile ∧
    (remove_component env binary st).1.installedFile = st.installedFile ∧
    (remove_component env binary st).1.log = st.log ++ ["No binaries found to remove"] := by
  have heval : remove_component env binary st =
      ({ st with log := st.log ++ ["No binaries found to remove"] }, .ok ()) := by
    simp only [remove_component, InstalledBinaries.new, installed_binaries_file, hinst, hempty,
      List.isEmpty_nil, if_true]
  exact ⟨by rw [heval], by rw [heval], by rw [heval], by rw [heval], by rw [heval]⟩

def recC4 : BinaryVersion :=
  ⟨"sui", "testnet", "v1.39.3", false, some "binaries/testnet/sui-v1.39.3"⟩

def stC4 : State := ⟨fun _ => none, some (Json.obj []), some [recC4], []⟩

/-- Witness for C4: one installed `sui` record whose recorded path is
missing on disk. -/
theorem remove_missing_path_aborts_witness :
    ∃ p, stC4.files p = none ∧
      (∃ r ∈ ([recC4] : List BinaryVersion).filter
        (fun b => (⟨"sui"⟩ : BinaryName).name == b.binary_name), r.path = some p) ∧
      (remove_component ⟨"binaries", "bin"⟩ ⟨"sui"⟩ stC4).2 = .ok () ∧
      (remove_component ⟨"binaries", "bin"⟩ ⟨"sui"⟩ stC4).1.files = stC4.files ∧
      (remove_component ⟨"binaries", "bin"⟩ ⟨"sui"⟩ stC4).1.defaultFile = stC4.defaultFile ∧
      (remove_component ⟨"binaries", "bin"⟩ ⟨"sui"⟩ stC4).1.installedFile =
        stC4.installedFile ∧
      (remove_component ⟨"binaries", "bin"⟩ ⟨"sui"⟩ stC4).1.log =
        stC4.log ++ ["Binary " ++ p ++ " does not exist. Aborting the command."] :=
  remove_missing_path_aborts ⟨"binaries", "bin"⟩ ⟨"sui"⟩ stC4 [recC4] rfl
    ⟨recC4, by decide, "binaries/testnet/sui-v1.39.3", rfl, rfl⟩

def stC8 : State := ⟨fun _ => none, some (Json.obj []), some [], []⟩

/-- Witness for C8 with an empty installed store. -/
theorem remove_no_records_noop_witness :
    (remove_component ⟨"binaries", "bin"⟩ ⟨"sui"⟩ stC8).2 = .ok () ∧
    (remove_component ⟨"binaries", "bin"⟩ ⟨"sui"⟩ stC8).1.files = stC8.files ∧
    (remove_component ⟨"binaries", "bin"⟩ ⟨"sui"⟩ stC8).1.defaultFile = stC8.defaultFile ∧
    (remove_component ⟨"binaries", "bin"⟩ ⟨"sui"⟩ stC8).1.installedFile =
      stC8.installedFile ∧
    (remove_component ⟨"binaries", "bin"⟩ ⟨"sui"⟩ stC8).1.log =
      stC8.log ++ ["No binaries found to remove"] :=
  remove_no_records_noop ⟨"binaries", "bin"⟩ ⟨"sui"⟩ stC8 [] rfl rfl

end Suiup


